import Mathlib

/-!
Verification of the AEAD core of the `crypto` library: the ChaCha20-Poly1305
composition (`src/aeadcipher/chacha20_poly1305/mod.rs`) and the AES-GCM-SIV
composition (`src/blockmode/gcm_siv/mod.rs`), over a shallow embedding of the
Rust source.  Byte buffers are embedded as `List Nat` (each byte `< 256`),
machine integers as `Nat` with explicit truncation where the source wraps.
The external collaborators that the spec declares out of scope (the ChaCha20
stream cipher, the Poly1305 accumulator internals, the AES-128 block cipher,
and the `subtle` constant-time comparison) are modelled from the spec as
abstract parameters or interface-level definitions.
-/

namespace Crypto

/-- Byte strings are lists of naturals; well formed when every entry is `< 256`. -/
abbrev Bytes := List Nat

/-- Every byte of the list is below 256. -/
abbrev WfBytes (b : Bytes) : Prop := ∀ x ∈ b, x < 256

/-- `u32::from_le_bytes` on the first four bytes (missing bytes read as 0). -/
def fromLe32 (b : Bytes) : Nat :=
  b.getD 0 0 + 256 * b.getD 1 0 + 65536 * b.getD 2 0 + 16777216 * b.getD 3 0

/-- `u32::to_le_bytes`. -/
def toLe32 (n : Nat) : Bytes :=
  [n % 256, n / 256 % 256, n / 65536 % 256, n / 16777216 % 256]

/-- `u64::to_le_bytes`: the source always materialises these eight bytes from a
`u64`, so the value is implicitly truncated modulo `2^64` byte by byte. -/
def toLe64 (n : Nat) : Bytes :=
  [n % 256, n / 256 % 256, n / 256 ^ 2 % 256, n / 256 ^ 3 % 256,
   n / 256 ^ 4 % 256, n / 256 ^ 5 % 256, n / 256 ^ 6 % 256, n / 256 ^ 7 % 256]

/-- `u64::from_le_bytes` on the first eight bytes of a list. -/
def fromLe64 (b : Bytes) : Nat :=
  b.getD 0 0 + 256 * b.getD 1 0 + 256 ^ 2 * b.getD 2 0 + 256 ^ 3 * b.getD 3 0 +
  256 ^ 4 * b.getD 4 0 + 256 ^ 5 * b.getD 5 0 + 256 ^ 6 * b.getD 6 0 + 256 ^ 7 * b.getD 7 0

/-- The 128-bit little-endian value held by a 16-byte block. -/
def fromLe128 (b : Bytes) : Nat := fromLe64 (b.take 8) + 2 ^ 64 * fromLe64 (b.drop 8)

/-- In-place XOR of a chunk into the leading bytes of a buffer, as in
`for i in 0..chunk.len() { h[i] ^= chunk[i] }`; bytes past the chunk are kept. -/
def xorInto (h chunk : Bytes) : Bytes :=
  List.zipWith (· ^^^ ·) h chunk ++ h.drop chunk.length

/-- Modelled from the spec: the `subtle` crate's constant-time equality on byte
slices (an external collaborator, not part of this repository).  It compares
the lengths and accumulates the XOR of every byte pair without early exit;
functionally it decides equality of the two byte strings. -/
def ctEq (a b : Bytes) : Bool :=
  a.length == b.length && (List.zipWith (· ^^^ ·) a b).foldl (· ||| ·) 0 == 0

/-! ### Carry-less multiplication (`cl_mul` in `gcm_siv/mod.rs`)

The Rust source keeps the 128-bit shift register as two `u64` cells
`dst[0]`/`dst[1]`; the embedding keeps them as a pair `(dst0, dst1)` of
naturals below `2^64`. -/

/-- One iteration of the `cl_mul` loop body: conditionally XOR `a` into
`dst[1]`, shift `dst[0]` right, carry bit 0 of `dst[1]` into bit 63 of
`dst[0]`, shift `dst[1]` right. -/
def clMulStep (a b : Nat) (i : Nat) (dst : Nat × Nat) : Nat × Nat :=
  let d1 := if b.testBit i then dst.2 ^^^ a else dst.2
  let d0 := dst.1 >>> 1
  let d0 := if d1.testBit 0 then d0 ^^^ (1 <<< 63) else d0
  (d0, d1 >>> 1)

/-- The `for i in 0u64..64` loop of `cl_mul`, running `n` iterations starting
at bit index `i`. -/
def clMulAux (a b : Nat) : Nat → Nat → Nat × Nat → Nat × Nat
  | _, 0, dst => dst
  | i, n + 1, dst => clMulAux a b (i + 1) n (clMulStep a b i dst)

/-- `cl_mul(a, b, dst)`: bit-serial carry-less multiply of two 64-bit operands,
returning the final contents of `(dst[0], dst[1])`. -/
def cl_mul (a b : Nat) : Nat × Nat := clMulAux a b 0 64 (0, 0)

/-- The mathematical carry-less product restricted to bit window
`[i, i+n)` of `b`: the XOR of `a <<< k` over the set bits of `b` in that
window (`k` counted relative to `i`). -/
def clMulWindow (a b : Nat) : Nat → Nat → Nat
  | _, 0 => 0
  | i, n + 1 => (if b.testBit i then a else 0) ^^^ (clMulWindow a b (i + 1) n <<< 1)

/-- Specification of carry-less multiplication, straight from the claim: for
each of the 64 bits of `b` that is set at position `i`, accumulate (XOR)
`a` shifted left by `i`, with no carry propagation. -/
def clMulSpec (a b : Nat) : Nat :=
  ((List.range 64).map (fun i => if b.testBit i then a <<< i else 0)).foldr (· ^^^ ·) 0

/-- The `cl_mul` loop body acting on the combined 128-bit value
`dst[1] * 2^64 + dst[0]`. -/
def clCombinedStep (a b i c : Nat) : Nat :=
  (if b.testBit i then c ^^^ (a <<< 64) else c) >>> 1

/-- The `cl_mul` loop acting on the combined 128-bit value. -/
def clCombined (a b : Nat) : Nat → Nat → Nat → Nat
  | _, 0, c => c
  | i, n + 1, c => clCombined a b (i + 1) n (clCombinedStep a b i c)

theorem xor_shiftRight (x y k : Nat) : (x ^^^ y) >>> k = (x >>> k) ^^^ (y >>> k) := by
  apply Nat.eq_of_testBit_eq
  intro j
  simp [Nat.testBit_shiftRight, Nat.testBit_xor]

theorem xor_shiftLeft (x y k : Nat) : (x ^^^ y) <<< k = (x <<< k) ^^^ (y <<< k) := by
  apply Nat.eq_of_testBit_eq
  intro j
  simp only [Nat.testBit_shiftLeft, Nat.testBit_xor]
  cases Decidable.em (k ≤ j) <;> simp [*]

theorem shiftLeft_shiftRight_cancel (x k : Nat) : (x <<< k) >>> k = x := by
  apply Nat.eq_of_testBit_eq
  intro j
  simp [Nat.testBit_shiftRight, Nat.testBit_shiftLeft]

/-- Low 64 bits of a 128-bit register after a right shift, expressed through
the two 64-bit halves: the low half shifts right and receives bit 0 of the
high half as its new bit 63. -/
theorem low_of_shiftRight_one (x : Nat) :
    (x >>> 1) % 2 ^ 64 =
      (if (x >>> 64).testBit 0 then ((x % 2 ^ 64) >>> 1) ^^^ (1 <<< 63)
       else (x % 2 ^ 64) >>> 1) := by
  have hb0 : (x >>> 64).testBit 0 = x.testBit 64 := by
    simp [Nat.testBit_shiftRight]
  rw [Nat.one_shiftLeft, hb0]
  apply Nat.eq_of_testBit_eq
  intro j
  by_cases h64 : x.testBit 64
  · rw [if_pos h64]
    simp only [Nat.testBit_mod_two_pow, Nat.testBit_xor, Nat.testBit_shiftRight,
      Nat.testBit_two_pow]
    by_cases hj : j < 63
    · have e1 : decide (j < 64) = true := by simp; omega
      have e2 : decide (1 + j < 64) = true := by simp; omega
      have e3 : decide (63 = j) = false := by simp; omega
      simp [e1, e2, e3]
    · by_cases hj63 : j = 63
      · subst hj63
        simp [h64]
      · have e1 : decide (j < 64) = false := by simp; omega
        have e2 : decide (1 + j < 64) = false := by simp; omega
        have e3 : decide (63 = j) = false := by simp; omega
        simp [e1, e2, e3]
  · rw [if_neg h64]
    simp only [Nat.testBit_mod_two_pow, Nat.testBit_shiftRight]
    by_cases hj : j < 63
    · have e1 : decide (j < 64) = true := by simp; omega
      have e2 : decide (1 + j < 64) = true := by simp; omega
      simp [e1, e2]
    · by_cases hj63 : j = 63
      · subst hj63
        simp [h64]
      · have e1 : decide (j < 64) = false := by simp; omega
        have e2 : decide (1 + j < 64) = false := by simp; omega
        simp [e1, e2]

/-- One step of the two-word loop agrees with one step on the combined
128-bit value. -/
theorem clMulStep_eq_combined (a b i c : Nat) :
    clMulStep a b i (c % 2 ^ 64, c >>> 64) =
      (clCombinedStep a b i c % 2 ^ 64, clCombinedStep a b i c >>> 64) := by
  have hhigh : (if b.testBit i then c ^^^ (a <<< 64) else c) >>> 64 =
      (if b.testBit i then (c >>> 64) ^^^ a else c >>> 64) := by
    split
    · rw [xor_shiftRight, shiftLeft_shiftRight_cancel]
    · rfl
  have hlow : (if b.testBit i then c ^^^ (a <<< 64) else c) % 2 ^ 64 = c % 2 ^ 64 := by
    split
    · apply Nat.eq_of_testBit_eq
      intro j
      simp only [Nat.testBit_mod_two_pow, Nat.testBit_xor, Nat.testBit_shiftLeft]
      by_cases hj : j < 64
      · have hle : decide (64 ≤ j) = false := by simp; omega
        simp [hj, hle]
      · simp [hj]
    · rfl
  simp only [clMulStep, clCombinedStep, Prod.mk.injEq]
  refine ⟨?_, ?_⟩
  · rw [low_of_shiftRight_one (if b.testBit i then c ^^^ (a <<< 64) else c), hlow, hhigh]
  · rw [← hhigh, ← Nat.shiftRight_add, ← Nat.shiftRight_add, Nat.add_comm]

/-- The two-word `cl_mul` loop simulates the combined 128-bit loop. -/
theorem clMulAux_eq_combined (a b : Nat) :
    ∀ n i c,
      clMulAux a b i n (c % 2 ^ 64, c >>> 64) =
        (clCombined a b i n c % 2 ^ 64, clCombined a b i n c >>> 64) := by
  intro n
  induction n with
  | zero => intro i c; rfl
  | succ n ih =>
    intro i c
    show clMulAux a b (i + 1) n (clMulStep a b i (c % 2 ^ 64, c >>> 64)) = _
    rw [clMulStep_eq_combined a b i c, ih (i + 1) (clCombinedStep a b i c)]
    rfl

/-- Closed form of the combined loop: XOR in the windowed carry-less product
shifted to the top half, then shift right by the number of iterations. -/
theorem clCombined_closed (a b : Nat) :
    ∀ n i c, clCombined a b i n c = (c ^^^ (clMulWindow a b i n <<< 64)) >>> n := by
  intro n
  induction n with
  | zero => intro i c; simp [clCombined, clMulWindow]
  | succ n ih =>
    intro i c
    show clCombined a b (i + 1) n (clCombinedStep a b i c) = _
    rw [ih]
    have hstep : clCombinedStep a b i c =
        (c ^^^ (if b.testBit i then a <<< 64 else 0)) >>> 1 := by
      unfold clCombinedStep
      split <;> simp
    have hw : clMulWindow a b i (n + 1) =
        (if b.testBit i then a else 0) ^^^ (clMulWindow a b (i + 1) n <<< 1) := rfl
    have hpush : clMulWindow a b i (n + 1) <<< 64 =
        (if b.testBit i then a <<< 64 else 0) ^^^ ((clMulWindow a b (i + 1) n <<< 64) <<< 1) := by
      rw [hw, xor_shiftLeft]
      have h1 : (if b.testBit i then a else 0) <<< 64 =
          (if b.testBit i then a <<< 64 else 0) := by
        split <;> simp
      have h2 : (clMulWindow a b (i + 1) n <<< 1) <<< 64 =
          (clMulWindow a b (i + 1) n <<< 64) <<< 1 := by
        rw [← Nat.shiftLeft_add, ← Nat.shiftLeft_add, Nat.add_comm]
      rw [h1, h2]
    have hcancel :
        ((c ^^^ (if b.testBit i then a <<< 64 else 0)) ^^^
            ((clMulWindow a b (i + 1) n <<< 64) <<< 1)) >>> 1 =
          ((c ^^^ (if b.testBit i then a <<< 64 else 0)) >>> 1) ^^^
            (clMulWindow a b (i + 1) n <<< 64) := by
      rw [xor_shiftRight, shiftLeft_shiftRight_cancel]
    have hsr : ∀ y : Nat, y >>> (n + 1) = (y >>> 1) >>> n := by
      intro y
      rw [← Nat.shiftRight_add, Nat.add_comm]
    rw [hstep, hpush, hsr, ← Nat.xor_assoc, hcancel]

/-- The bit window of width `n` starting at offset `i` is the XOR of the
shifted copies of `a` over the set bits of `b` in `[i, i + n)`. -/
theorem clMulWindow_eq_fold (a b : Nat) :
    ∀ n i, clMulWindow a b i n =
      ((List.range n).map (fun k => if b.testBit (i + k) then a <<< k else 0)).foldr
        (· ^^^ ·) 0 := by
  intro n
  induction n with
  | zero => intro i; rfl
  | succ n ih =>
    intro i
    rw [List.range_succ_eq_map]
    show (if b.testBit i then a else 0) ^^^ (clMulWindow a b (i + 1) n <<< 1) = _
    rw [ih (i + 1)]
    have hfold : ∀ l : List Nat,
        (l.foldr (· ^^^ ·) 0) <<< 1 = (l.map (· <<< 1)).foldr (· ^^^ ·) 0 := by
      intro l
      induction l with
      | nil => simp
      | cons x xs ihl => simp [List.foldr_cons, xor_shiftLeft, ihl]
    rw [hfold, List.map_map]
    have hmaps : (List.range n).map ((· <<< 1) ∘ fun k => if b.testBit (i + 1 + k) then a <<< k else 0)
        = (List.range n).map ((fun k => if b.testBit (i + k) then a <<< k else 0) ∘ Nat.succ) := by
      apply List.map_congr_left
      intro k _
      simp only [Function.comp_apply]
      have harith : i + 1 + k = i + Nat.succ k := by omega
      by_cases hbit : b.testBit (i + 1 + k)
      · rw [if_pos hbit, if_pos (by rwa [harith] at hbit), ← Nat.shiftLeft_add]
      · rw [if_neg hbit, if_neg (by rwa [harith] at hbit)]
        simp
    rw [hmaps, ← List.map_map]
    simp [List.map_cons, List.foldr_cons]

/-- C6: `cl_mul(a, b, dst)` leaves in `dst` the carry-less (GF(2)
polynomial, XOR-based) product of `a` and `b` as a 128-bit value split into
the two 64-bit halves `dst[0]` (low) and `dst[1]` (high): for each of the 64
bits of `b` set at position `i` the product accumulates `a <<< i` by XOR,
with no carry propagation (`clMulSpec` is that accumulation verbatim).  No
bound on the operands is even needed; the `u64` domain of the source is the
case `a, b < 2^64`. -/
theorem C6_cl_mul_carryless_product (a b : Nat) :
    cl_mul a b = (clMulSpec a b % 2 ^ 64, clMulSpec a b >>> 64) := by
  have h0 : ((0 : Nat) % 2 ^ 64, (0 : Nat) >>> 64) = ((0 : Nat), (0 : Nat)) := by
    norm_num
  have h1 : cl_mul a b = clMulAux a b 0 64 ((0 : Nat) % 2 ^ 64, (0 : Nat) >>> 64) := by
    rw [h0]; rfl
  rw [h1, clMulAux_eq_combined a b 64 0 0, clCombined_closed a b 64 0 0]
  have hspec : (0 ^^^ (clMulWindow a b 0 64 <<< 64)) >>> 64 = clMulSpec a b := by
    rw [Nat.zero_xor, shiftLeft_shiftRight_cancel, clMulWindow_eq_fold a b 64 0]
    simp [clMulSpec]
  rw [hspec]

/-! ### Polyval (`gcm_siv/mod.rs`)

`Polyval` holds a 16-byte key and a 16-byte accumulator `h`.  `gf_mul`
multiplies the accumulator by the key in GF(2^128) using four 64x64
carry-less products, the schoolbook combination, and two reduction folds with
the constant `0xc200000000000000`; the `transmute`-based 32-bit lane swizzle
`[a,b,c,d] -> [c,d,a,b]` of the source is, on a little-endian target, exactly
a swap of the two 64-bit halves, and is embedded as such. -/

structure Polyval where
  key : Bytes
  h : Bytes
  deriving Repr, DecidableEq

/-- `Polyval::new`: zero accumulator, stored key. -/
def Polyval.new (k : Bytes) : Polyval :=
  { key := k.take 16, h := List.replicate 16 0 }

/-- `Polyval::reset`: zero the accumulator, keep the key. -/
def Polyval.reset (p : Polyval) : Polyval :=
  { p with h := List.replicate 16 0 }

/-- `Polyval::gf_mul`, line for line from the source. -/
def Polyval.gf_mul (p : Polyval) : Polyval :=
  let a0 := fromLe64 (p.h.take 8)
  let a1 := fromLe64 (p.h.drop 8)
  let b0 := fromLe64 (p.key.take 8)
  let b1 := fromLe64 (p.key.drop 8)
  let tmp1 := cl_mul a0 b0
  let tmp2 := cl_mul a1 b0
  let tmp3 := cl_mul a0 b1
  let tmp4 := cl_mul a1 b1
  let tmp2 := (tmp2.1 ^^^ tmp3.1, tmp2.2 ^^^ tmp3.2)
  let tmp3 := ((0 : Nat), tmp2.1)
  let tmp2 := (tmp2.2, (0 : Nat))
  let tmp1 := (tmp1.1 ^^^ tmp3.1, tmp1.2 ^^^ tmp3.2)
  let tmp4 := (tmp4.1 ^^^ tmp2.1, tmp4.2 ^^^ tmp2.2)
  let xmm := (0xc200000000000000 : Nat)
  let tmp2 := cl_mul xmm tmp1.1
  let tmp3 := (tmp1.2, tmp1.1)
  let tmp1 := (tmp2.1 ^^^ tmp3.1, tmp2.2 ^^^ tmp3.2)
  let tmp2 := cl_mul xmm tmp1.1
  let tmp3 := (tmp1.2, tmp1.1)
  let tmp1 := (tmp2.1 ^^^ tmp3.1, tmp2.2 ^^^ tmp3.2)
  let tmp4 := (tmp4.1 ^^^ tmp1.1, tmp4.2 ^^^ tmp1.2)
  { p with h := toLe64 tmp4.1 ++ toLe64 tmp4.2 }

/-- The fuel-indexed chunk loop of `Polyval::polyval`; the fuel is an
artifact that makes the recursion structural (one unit per chunk suffices,
the callers pass the data length). -/
def Polyval.polyvalGo (fuel : Nat) (p : Polyval) (data : Bytes) : Polyval :=
  match fuel, data with
  | _, [] => p
  | 0, _ :: _ => p
  | fuel + 1, d :: ds =>
    let chunk := (d :: ds).take 16
    Polyval.polyvalGo fuel (Polyval.gf_mul { p with h := xorInto p.h chunk })
      ((d :: ds).drop 16)

/-- `Polyval::polyval(data)`: for each 16-byte chunk of `data` (the last one
may be shorter), XOR the chunk into the leading bytes of the accumulator and
run `gf_mul`. -/
def Polyval.polyval (p : Polyval) (data : Bytes) : Polyval :=
  Polyval.polyvalGo data.length p data

/-! ### Counter mode (`incr` and the CTR loops of `gcm_siv/mod.rs`) -/

/-- `incr`: interpret the first four bytes as a little-endian `u32`, add one
wrapping, and write the four bytes back; bytes 4..15 are untouched. -/
def incr (block : Bytes) : Bytes :=
  let counter := toLe32 ((fromLe32 block + 1) % 2 ^ 32)
  ((((block.set 0 (counter.getD 0 0)).set 1 (counter.getD 1 0)).set 2
      (counter.getD 2 0)).set 3 (counter.getD 3 0))

/-- Fuel-indexed CTR loop shared verbatim by `aead_encrypt` and
`aead_decrypt`: per 16-byte chunk, encrypt the counter block, step the
counter with `incr` once, and XOR the keystream block into the chunk.
Returns the processed buffer and the final counter block. -/
def ctrGo (E : Bytes → Bytes) : Nat → Bytes → Bytes → Bytes × Bytes
  | _, counter, [] => ([], counter)
  | 0, counter, d :: ds => (d :: ds, counter)
  | fuel + 1, counter, d :: ds =>
    let keystream_block := E counter
    let counter1 := incr counter
    let chunk := (d :: ds).take 16
    let rest := ctrGo E fuel counter1 ((d :: ds).drop 16)
    (List.zipWith (· ^^^ ·) chunk keystream_block ++ rest.1, rest.2)

/-- The CTR transformation of a message under block-encryption function `E`
starting from `counter`. -/
def ctr (E : Bytes → Bytes) (counter data : Bytes) : Bytes × Bytes :=
  ctrGo E data.length counter data

/-! ### AES-GCM-SIV (`Aes128GcmSiv` in `gcm_siv/mod.rs`)

The AES-128 block cipher is an external collaborator.  Modelled from the
spec: "the underlying block cipher primitive (fixed-size block encryption
only)" is an abstract function `aes : key -> block -> block`; a session
stores the block-encryption function re-keyed with the derived message
encryption key. -/

structure Aes128GcmSiv where
  cipher : Bytes → Bytes
  nonce : Bytes
  polyval : Polyval

/-- `Aes128GcmSiv::new`: derivation counter block `0x00000000 ‖ nonce`; the
source sets only byte 0 to the derivation index (bytes 1..3 are already
zero), encrypts with the long-term key, and keeps the first 8 bytes of each
result; indices 0,1 build the message-authentication key `ak`, indices 2,3
build the message-encryption key `ek` (`KEY_LEN` is 16 here, so the
32-byte-key branch of the source is dead code); the cipher is re-keyed with
`ek` and the nonce is stored. -/
def Aes128GcmSiv.new (aes : Bytes → Bytes → Bytes) (key nonce : Bytes) : Aes128GcmSiv :=
  let cipher := aes key
  let counter_block := List.replicate 4 0 ++ nonce.take 12
  let t0 := cipher (counter_block.set 0 0)
  let t1 := cipher (counter_block.set 0 1)
  let t2 := cipher (counter_block.set 0 2)
  let t3 := cipher (counter_block.set 0 3)
  let ak := t0.take 8 ++ t1.take 8
  let ek := t2.take 8 ++ t3.take 8
  { cipher := aes ek, nonce := nonce.take 12, polyval := Polyval.new ak }

/-- `Aes128GcmSiv::aead_encrypt`.  Returns the session (its Polyval
accumulator is left in its final state, as in the source) and the buffer,
whose first `len - 16` bytes are the ciphertext and last 16 bytes the tag. -/
def Aes128GcmSiv.aead_encrypt (s : Aes128GcmSiv) (aad buf : Bytes) :
    Aes128GcmSiv × Bytes :=
  let alen := aad.length
  let plen := buf.length - 16
  let plaintext := buf.take plen
  let bit_len_block := toLe64 (alen * 8) ++ toLe64 (plen * 8)
  let pv := s.polyval.reset
  let pv := pv.polyval aad
  let pv := pv.polyval plaintext
  let pv := pv.polyval bit_len_block
  let h1 := xorInto pv.h s.nonce
  let h2 := h1.set 15 (h1.getD 15 0 &&& 0x7f)
  let tag := s.cipher h2
  let counter_block := tag.set 15 (tag.getD 15 0 ||| 0x80)
  let ct := (ctr s.cipher counter_block plaintext).1
  ({ s with polyval := { key := s.polyval.key, h := h2 } }, ct ++ tag)

/-- `Aes128GcmSiv::aead_decrypt`.  CTR-decrypts the ciphertext in place
(before any verification), recomputes the tag over the recovered plaintext,
and returns the session, the buffer and the comparison result. -/
def Aes128GcmSiv.aead_decrypt (s : Aes128GcmSiv) (aad buf : Bytes) :
    Aes128GcmSiv × Bytes × Bool :=
  let alen := aad.length
  let clen := buf.length - 16
  let input_tag := buf.drop clen
  let counter_block := input_tag.set 15 (input_tag.getD 15 0 ||| 0x80)
  let cleartext := (ctr s.cipher counter_block (buf.take clen)).1
  let bit_len_block := toLe64 (alen * 8) ++ toLe64 (clen * 8)
  let pv := s.polyval.reset
  let pv := pv.polyval aad
  let pv := pv.polyval cleartext
  let pv := pv.polyval bit_len_block
  let h1 := xorInto pv.h s.nonce
  let h2 := h1.set 15 (h1.getD 15 0 &&& 0x7f)
  let tag := s.cipher h2
  ({ s with polyval := { key := s.polyval.key, h := h2 } },
   cleartext ++ input_tag,
   ctEq input_tag tag)

/-- The key-derivation loop exactly as claim C7 words it: derivation indices
run from 0 up to `key-length / 8 - 1` inclusive (that is, 0 and 1 for the
16-byte key of `Aes128GcmSiv`); the first two 8-byte chunks form the
message-authentication key and whatever chunks remain — none, under this
index range — form the message-encryption key. -/
def Aes128GcmSivNewClaim (aes : Bytes → Bytes → Bytes) (key nonce : Bytes) :
    Aes128GcmSiv :=
  let cipher := aes key
  let counter_block := List.replicate 4 0 ++ nonce.take 12
  let chunks := (List.range (key.length / 8)).map
    (fun i => (cipher (counter_block.set 0 i)).take 8)
  let ak := (chunks.take 2).flatten
  let ek := (chunks.drop 2).flatten
  { cipher := aes ek, nonce := nonce.take 12, polyval := Polyval.new ak }

/-! ### ChaCha20-Poly1305 (`chacha20_poly1305/mod.rs`)

The ChaCha20 stream cipher and the Poly1305 modular arithmetic live outside
`src/`.  Modelled from the spec: ChaCha20 is "keystream generation /
XOR-in-place" — a deterministic byte stream `ks` (a function of the key and
nonce) consumed from a running position, 64 bytes per block; Poly1305 is
consumed through its interface only (construct-with-key, update, finalize),
so a Poly1305 value records its 32-byte one-time key and the byte stream fed
so far, and `finalize` applies an abstract MAC function to them. -/

structure Chacha20 where
  ks : Nat → Nat
  pos : Nat

/-- Modelled from the spec: `Chacha20::encrypt` XORs the next `buf.length`
keystream bytes into the buffer in place and advances the stream position
(`Chacha20::decrypt` is the same XOR). -/
def Chacha20.encryptBuf (c : Chacha20) (buf : Bytes) : Chacha20 × Bytes :=
  ({ c with pos := c.pos + buf.length },
   List.zipWith (· ^^^ ·) buf ((List.range buf.length).map (fun i => c.ks (c.pos + i) % 256)))

structure Poly1305 where
  key : Bytes
  acc : Bytes
  mac : Bytes → Bytes → Bytes

/-- Modelled from the spec: `Poly1305::update` feeds more bytes to the
one-time accumulator. -/
def Poly1305.update (p : Poly1305) (data : Bytes) : Poly1305 :=
  { p with acc := p.acc ++ data }

/-- Modelled from the spec: `Poly1305::finalize` produces the 16-byte tag of
everything fed so far under the one-time key. -/
def Poly1305.finalize (p : Poly1305) : Bytes :=
  p.mac p.key p.acc

structure Chacha20Poly1305 where
  chacha20 : Chacha20
  poly1305 : Poly1305

/-- `Chacha20Poly1305::new`: run the stream cipher over two discarded
64-byte blocks (indices 1 and 2 of the stream), take the first 32 bytes of
the second block as the one-time Poly1305 key, and leave the stream
positioned at block 2 for message encryption. -/
def Chacha20Poly1305.new (mac : Bytes → Bytes → Bytes) (ks : Nat → Nat) :
    Chacha20Poly1305 :=
  let chacha20 : Chacha20 := { ks := ks, pos := 0 }
  let r1 := chacha20.encryptBuf (List.replicate 64 0)
  let chacha20 := r1.1
  let r2 := chacha20.encryptBuf (List.replicate 64 0)
  let chacha20 := r2.1
  let poly1305_key := r2.2.take 32
  { chacha20 := chacha20, poly1305 := { key := poly1305_key, acc := [], mac := mac } }

/-- The number of zero-padding bytes the source inserts after a field of
length `l`: `r = Poly1305::BLOCK_LEN - l % Poly1305::BLOCK_LEN` (note: this
is never 0; it is a full block of 16 zeros when `l` is a multiple of 16). -/
def poly1305PadLen (l : Nat) : Nat := 16 - l % 16

/-- The byte sequence `Chacha20Poly1305::aead_encrypt` and `aead_decrypt`
feed to the Poly1305 accumulator: associated data, the source's padding,
ciphertext, the source's padding, then the two 8-byte little-endian byte
lengths. -/
def macFeed (aad ct : Bytes) : Bytes :=
  aad ++ List.replicate (poly1305PadLen aad.length) 0 ++
  ct ++ List.replicate (poly1305PadLen ct.length) 0 ++
  toLe64 aad.length ++ toLe64 ct.length

/-- The MAC input sequence as claim C2 states it: zero padding runs only up
to the smallest multiple of 16 that is not less than the field length, so a
field whose length is a multiple of 16 gets no padding at all. -/
def macFeedClaim (aad ct : Bytes) : Bytes :=
  aad ++ List.replicate ((16 - aad.length % 16) % 16) 0 ++
  ct ++ List.replicate ((16 - ct.length % 16) % 16) 0 ++
  toLe64 aad.length ++ toLe64 ct.length

/-- `Chacha20Poly1305::aead_encrypt`: clone the Poly1305 template, encrypt
the plaintext in place, feed aad / padding / ciphertext / padding / lengths
to the accumulator, finalize, write the tag over the last 16 bytes. -/
def Chacha20Poly1305.aead_encrypt (s : Chacha20Poly1305) (aad buf : Bytes) :
    Chacha20Poly1305 × Bytes :=
  let alen := aad.length
  let plen := buf.length - 16
  let poly1305 := s.poly1305
  let r := s.chacha20.encryptBuf (buf.take plen)
  let chacha20 := r.1
  let ciphertext := r.2
  let poly1305 := poly1305.update aad
  let r1 := 16 - alen % 16
  let poly1305 := if r1 > 0 then poly1305.update (List.replicate r1 0) else poly1305
  let poly1305 := poly1305.update ciphertext
  let r2 := 16 - plen % 16
  let poly1305 := if r2 > 0 then poly1305.update (List.replicate r2 0) else poly1305
  let poly1305 := poly1305.update (toLe64 alen)
  let poly1305 := poly1305.update (toLe64 plen)
  let tag := poly1305.finalize
  ({ s with chacha20 := chacha20 }, ciphertext ++ tag)

/-- `Chacha20Poly1305::aead_decrypt`: recompute the tag over aad / padding /
ciphertext / padding / lengths, compare with the trailing 16 bytes, and only
on a match XOR-decrypt the ciphertext in place. -/
def Chacha20Poly1305.aead_decrypt (s : Chacha20Poly1305) (aad buf : Bytes) :
    Chacha20Poly1305 × Bytes × Bool :=
  let alen := aad.length
  let plen := buf.length - 16
  let ciphertext := buf.take plen
  let poly1305 := s.poly1305
  let poly1305 := poly1305.update aad
  let r1 := 16 - alen % 16
  let poly1305 := if r1 > 0 then poly1305.update (List.replicate r1 0) else poly1305
  let poly1305 := poly1305.update ciphertext
  let r2 := 16 - plen % 16
  let poly1305 := if r2 > 0 then poly1305.update (List.replicate r2 0) else poly1305
  let poly1305 := poly1305.update (toLe64 alen)
  let poly1305 := poly1305.update (toLe64 plen)
  let tag := poly1305.finalize
  let input_tag := buf.drop plen
  let is_match := ctEq input_tag tag
  if is_match then
    let r := s.chacha20.encryptBuf ciphertext
    ({ s with chacha20 := r.1 }, r.2 ++ input_tag, true)
  else
    (s, buf, false)

/-! ### Supporting lemmas -/

theorem lor_eq_zero_iff (a b : Nat) : a ||| b = 0 ↔ a = 0 ∧ b = 0 := by
  constructor
  · intro h
    constructor <;>
      · apply Nat.eq_of_testBit_eq
        intro j
        have hj := congrArg (Nat.testBit · j) h
        simp only [Nat.testBit_or, Nat.zero_testBit, Bool.or_eq_false_iff] at hj
        simp [hj.1, hj.2]
  · rintro ⟨rfl, rfl⟩
    rfl

theorem foldl_lor_eq_zero (l : List Nat) :
    ∀ acc, (l.foldl (· ||| ·) acc = 0 ↔ acc = 0 ∧ ∀ x ∈ l, x = 0) := by
  induction l with
  | nil => intro acc; simp
  | cons x xs ih =>
    intro acc
    rw [List.foldl_cons, ih (acc ||| x)]
    rw [lor_eq_zero_iff]
    constructor
    · rintro ⟨⟨ha, hx⟩, hxs⟩
      exact ⟨ha, by
        intro y hy
        rcases List.mem_cons.mp hy with h | h
        · exact h ▸ hx
        · exact hxs y h⟩
    · rintro ⟨ha, hall⟩
      exact ⟨⟨ha, hall x (List.mem_cons_self x xs)⟩, fun y hy => hall y (List.mem_cons_of_mem x hy)⟩

/-- The modelled constant-time comparison decides equality of byte strings. -/
theorem ctEq_eq_true_iff (a b : Bytes) : ctEq a b = true ↔ a = b := by
  unfold ctEq
  rw [Bool.and_eq_true, beq_iff_eq, beq_iff_eq, foldl_lor_eq_zero]
  constructor
  · rintro ⟨hlen, -, hall⟩
    apply List.ext_getElem hlen
    intro i hi hi'
    have hmem : a[i] ^^^ b[i] ∈ List.zipWith (· ^^^ ·) a b := by
      have hz : i < (List.zipWith (· ^^^ ·) a b).length := by
        simp [List.length_zipWith]
        omega
      have hval : (List.zipWith (· ^^^ ·) a b)[i] = a[i] ^^^ b[i] := by
        simp [List.getElem_zipWith]
      rw [← hval]
      exact List.getElem_mem _
    have hx := hall _ hmem
    have := Nat.xor_eq_zero.mp hx
    exact this
  · rintro rfl
    refine ⟨rfl, rfl, ?_⟩
    intro x hx
    have : List.zipWith (· ^^^ ·) a a = List.map (fun y => y ^^^ y) a := by
      rw [List.zipWith_same]
    rw [this] at hx
    rcases List.mem_map.mp hx with ⟨y, -, rfl⟩
    simp

theorem ctEq_self (a : Bytes) : ctEq a a = true := (ctEq_eq_true_iff a a).mpr rfl

/-- Cancelling a keystream XOR: XORing the same list twice restores the
original, provided the keystream is at least as long. -/
theorem zipWith_xor_cancel :
    ∀ (as ks : List Nat), as.length ≤ ks.length →
      List.zipWith (· ^^^ ·) (List.zipWith (· ^^^ ·) as ks) ks = as := by
  intro as
  induction as with
  | nil => intro ks _; simp
  | cons a as ih =>
    intro ks hk
    cases ks with
    | nil => simp at hk
    | cons k ks =>
      simp only [List.zipWith_cons_cons, List.cons.injEq]
      refine ⟨by rw [Nat.xor_assoc, Nat.xor_self, Nat.xor_zero], ih ks (by simpa using hk)⟩

theorem zipWith_xor_length (as ks : List Nat) :
    (List.zipWith (· ^^^ ·) as ks).length = min as.length ks.length := by
  simp [List.length_zipWith]

/-- `zipWith` only consumes the overlap of the two lists. -/
theorem zipWith_take_left (f : Nat → Nat → Nat) :
    ∀ (h c : List Nat), List.zipWith f h c = List.zipWith f (h.take c.length) c := by
  intro h
  induction h with
  | nil => intro c; simp
  | cons x xs ih =>
    intro c
    cases c with
    | nil => simp
    | cons y ys => simp [ih ys]

/-- XORing zeros leaves the corresponding bytes untouched. -/
theorem zipWith_xor_replicate_zero :
    ∀ (l : List Nat) (n : Nat), List.zipWith (· ^^^ ·) l (List.replicate n 0) = l.take n := by
  intro l
  induction l with
  | nil => intro n; simp
  | cons x xs ih =>
    intro n
    cases n with
    | zero => simp
    | succ n => simp [List.replicate_succ, ih n]

/-- The modelled stream-cipher XOR keeps the buffer length. -/
theorem encryptBuf_length (c : Chacha20) (buf : Bytes) :
    (c.encryptBuf buf).2.length = buf.length := by
  simp [Chacha20.encryptBuf]

/-- The modelled stream-cipher XOR at a fixed position is an involution. -/
theorem encryptBuf_encryptBuf (c : Chacha20) (buf : Bytes) :
    (c.encryptBuf (c.encryptBuf buf).2).2 = buf := by
  unfold Chacha20.encryptBuf
  have hlen : (List.zipWith (· ^^^ ·) buf
      ((List.range buf.length).map (fun i => c.ks (c.pos + i) % 256))).length = buf.length := by
    simp
  simp only [hlen]
  exact zipWith_xor_cancel buf _ (by simp)

/-- One-step unfolding of the CTR loop on a nonempty buffer. -/
theorem ctrGo_ne_nil (E : Bytes → Bytes) (fuel : Nat) (counter : Bytes) (data : Bytes)
    (h : data ≠ []) :
    ctrGo E (fuel + 1) counter data =
      (List.zipWith (· ^^^ ·) (data.take 16) (E counter) ++
        (ctrGo E fuel (incr counter) (data.drop 16)).1,
       (ctrGo E fuel (incr counter) (data.drop 16)).2) := by
  cases data with
  | nil => exact absurd rfl h
  | cons d ds => rfl

/-- The CTR loop preserves the buffer length when the block function returns
16-byte blocks. -/
theorem ctrGo_length (E : Bytes → Bytes) (hE : ∀ b, (E b).length = 16) :
    ∀ fuel counter data, data.length ≤ fuel →
      ((ctrGo E fuel counter data).1).length = data.length := by
  intro fuel
  induction fuel with
  | zero =>
    intro counter data h
    cases data with
    | nil => rfl
    | cons d ds => simp at h
  | succ fuel ih =>
    intro counter data h
    cases data with
    | nil => rfl
    | cons d ds =>
      rw [ctrGo_ne_nil E fuel counter (d :: ds) (by simp)]
      simp only [List.length_append, List.length_zipWith, hE, List.length_take]
      rw [ih (incr counter) ((d :: ds).drop 16) (by simp at h ⊢; omega)]
      simp
      omega

/-- The CTR loop steps the counter with `incr` exactly once per 16-byte
chunk: the final counter is `incr` iterated `⌈len/16⌉` times. -/
theorem ctrGo_counter (E : Bytes → Bytes) :
    ∀ fuel counter data, data.length ≤ fuel →
      (ctrGo E fuel counter data).2 = incr^[(data.length + 15) / 16] counter := by
  intro fuel
  induction fuel with
  | zero =>
    intro counter data h
    cases data with
    | nil => rfl
    | cons d ds => simp at h
  | succ fuel ih =>
    intro counter data h
    cases data with
    | nil => rfl
    | cons d ds =>
      rw [ctrGo_ne_nil E fuel counter (d :: ds) (by simp)]
      simp only
      rw [ih (incr counter) ((d :: ds).drop 16) (by simp at h ⊢; omega)]
      have hlen : ((d :: ds).drop 16).length = (d :: ds).length - 16 := by simp
      rw [hlen]
      have harith : ((d :: ds).length + 15) / 16 = ((d :: ds).length - 16 + 15) / 16 + 1 := by
        have : (d :: ds).length ≥ 1 := by simp
        omega
      rw [harith, Function.iterate_succ_apply]

/-- CTR is an involution: running the loop again from the same counter
restores the data. -/
theorem ctrGo_ctrGo (E : Bytes → Bytes) (hE : ∀ b, (E b).length = 16) :
    ∀ fuel1 fuel2 counter data, data.length ≤ fuel1 → data.length ≤ fuel2 →
      (ctrGo E fuel2 counter ((ctrGo E fuel1 counter data).1)).1 = data := by
  intro fuel1
  induction fuel1 with
  | zero =>
    intro fuel2 counter data h1 h2
    cases data with
    | nil => cases fuel2 <;> rfl
    | cons d ds => simp at h1
  | succ fuel1 ih =>
    intro fuel2 counter data h1 h2
    cases data with
    | nil => cases fuel2 <;> rfl
    | cons d ds =>
      obtain ⟨fuel2, rfl⟩ : ∃ m, fuel2 = m + 1 := by
        cases fuel2 with
        | zero => simp at h2
        | succ m => exact ⟨m, rfl⟩
      rw [ctrGo_ne_nil E fuel1 counter (d :: ds) (by simp)]
      set A := List.zipWith (· ^^^ ·) ((d :: ds).take 16) (E counter) with hA
      set B := (ctrGo E fuel1 (incr counter) ((d :: ds).drop 16)).1 with hB
      have hAlen : A.length = min ((d :: ds).length) 16 := by
        rw [hA]
        simp [List.length_zipWith, hE]
        omega
      have hBlen : B.length = (d :: ds).length - 16 := by
        rw [hB, ctrGo_length E hE fuel1 (incr counter) _ (by simp at h1 ⊢; omega)]
        simp
      have hABne : A ++ B ≠ [] := by
        intro hcon
        have hlen0 : (A ++ B).length = 0 := by rw [hcon]; rfl
        rw [List.length_append] at hlen0
        have hs : (d :: ds).length ≥ 1 := by simp
        omega
      obtain ⟨e, es, hcons⟩ : ∃ e es, A ++ B = e :: es := by
        cases hAB : A ++ B with
        | nil => exact absurd hAB hABne
        | cons e es => exact ⟨e, es, rfl⟩
      rw [hcons, ctrGo_ne_nil E fuel2 counter (e :: es) (by simp), ← hcons]
      have htake : (A ++ B).take 16 = A := by
        rw [List.take_append_eq_append_take]
        have h1' : A.take 16 = A := List.take_of_length_le (by omega)
        rw [h1']
        rcases Nat.lt_or_ge ((d :: ds).length) 16 with hlt | hge
        · have : B = [] := List.eq_nil_of_length_eq_zero (by omega)
          simp [this]
        · have : 16 - A.length = 0 := by omega
          simp [this]
      have hdrop : (A ++ B).drop 16 = B := by
        rw [List.drop_append_eq_append_drop]
        rcases Nat.lt_or_ge ((d :: ds).length) 16 with hlt | hge
        · have hBnil : B = [] := List.eq_nil_of_length_eq_zero (by omega)
          have : A.drop 16 = [] := by
            apply List.eq_nil_of_length_eq_zero
            simp
            omega
          simp [this, hBnil]
        · have hA16 : A.length = 16 := by omega
          have : A.drop 16 = [] := by
            apply List.eq_nil_of_length_eq_zero
            simp [hA16]
          simp [this, hA16]
      rw [htake, hdrop]
      have hchunk : List.zipWith (· ^^^ ·) A (E counter) = (d :: ds).take 16 := by
        rw [hA]
        exact zipWith_xor_cancel _ _ (by rw [hE]; simp)
      rw [hchunk, hB,
        ih fuel2 (incr counter) ((d :: ds).drop 16) (by simp at h1 ⊢; omega)
          (by simp at h2 ⊢; omega)]
      exact List.take_append_drop 16 (d :: ds)

/-- CTR involution at the `ctr` wrapper level. -/
theorem ctr_ctr (E : Bytes → Bytes) (hE : ∀ b, (E b).length = 16)
    (counter data : Bytes) :
    (ctr E counter (ctr E counter data).1).1 = data := by
  unfold ctr
  have h1 : ((ctrGo E data.length counter data).1).length = data.length :=
    ctrGo_length E hE data.length counter data (le_refl _)
  rw [h1]
  exact ctrGo_ctrGo E hE data.length data.length counter data (le_refl _) (le_refl _)

/-- Length preservation at the `ctr` wrapper level. -/
theorem ctr_length (E : Bytes → Bytes) (hE : ∀ b, (E b).length = 16)
    (counter data : Bytes) :
    ((ctr E counter data).1).length = data.length :=
  ctrGo_length E hE data.length counter data (le_refl _)

/-- The fuel of the Polyval chunk loop is irrelevant once it covers the data
length. -/
theorem polyvalGo_fuel_irrel :
    ∀ fuel fuel' (p : Polyval) (data : Bytes), data.length ≤ fuel → data.length ≤ fuel' →
      Polyval.polyvalGo fuel p data = Polyval.polyvalGo fuel' p data := by
  intro fuel
  induction fuel with
  | zero =>
    intro fuel' p data h h'
    cases data with
    | nil => cases fuel' <;> rfl
    | cons d ds => simp at h
  | succ fuel ih =>
    intro fuel' p data h h'
    cases data with
    | nil => cases fuel' <;> rfl
    | cons d ds =>
      obtain ⟨m, rfl⟩ : ∃ m, fuel' = m + 1 := by
        cases fuel' with
        | zero => simp at h'
        | succ m => exact ⟨m, rfl⟩
      show Polyval.polyvalGo fuel _ _ = Polyval.polyvalGo m _ _
      exact ih m _ _ (by simp at h ⊢; omega) (by simp at h' ⊢; omega)

theorem polyval_nil (p : Polyval) : p.polyval [] = p := rfl

/-- The chunk-step equation of `Polyval::polyval`: on nonempty data, XOR the
first (up to) 16 bytes into the accumulator, multiply by the key with
`gf_mul`, and continue with the rest. -/
theorem polyval_step (p : Polyval) (data : Bytes) (h : data ≠ []) :
    p.polyval data =
      Polyval.polyval (Polyval.gf_mul { p with h := xorInto p.h (data.take 16) })
        (data.drop 16) := by
  cases data with
  | nil => exact absurd rfl h
  | cons d ds =>
    show Polyval.polyvalGo (d :: ds).length p (d :: ds) = _
    obtain ⟨m, hm⟩ : ∃ m, (d :: ds).length = m + 1 := ⟨ds.length, by simp⟩
    rw [hm]
    show Polyval.polyvalGo m _ ((d :: ds).drop 16) = _
    exact polyvalGo_fuel_irrel m _ _ _ (by simp at hm ⊢; omega) (le_refl _)

/-- `gf_mul` always leaves a well-formed 16-byte accumulator. -/
theorem gf_mul_wf (p : Polyval) :
    (p.gf_mul).h.length = 16 ∧ WfBytes (p.gf_mul).h := by
  have hle : ∀ n : Nat, (toLe64 n).length = 8 ∧ WfBytes (toLe64 n) := by
    intro n
    refine ⟨rfl, ?_⟩
    intro x hx
    simp only [toLe64, List.mem_cons, List.not_mem_nil, or_false] at hx
    rcases hx with h | h | h | h | h | h | h | h <;> subst h <;> exact Nat.mod_lt _ (by norm_num)
  unfold Polyval.gf_mul
  constructor
  · simp [(hle _).1]
  · intro x hx
    simp only [List.mem_append] at hx
    rcases hx with h | h
    · exact (hle _).2 x h
    · exact (hle _).2 x h

/-- Absorbing nonempty data always ends with a `gf_mul`, hence leaves a
well-formed 16-byte accumulator. -/
theorem polyval_wf_aux :
    ∀ (n : Nat) (p : Polyval) (data : Bytes), data.length = n → data ≠ [] →
      ((p.polyval data).h.length = 16 ∧ WfBytes (p.polyval data).h) ∧
        (p.polyval data).key = p.key := by
  intro n
  induction n using Nat.strong_induction_on with
  | _ n ih =>
    intro p data hn h
    rw [polyval_step p data h]
    rcases Decidable.em (data.drop 16 = []) with hnil | hne
    · rw [hnil, polyval_nil]
      exact ⟨gf_mul_wf _, rfl⟩
    · have hlt : (data.drop 16).length < n := by
        subst hn
        cases data with
        | nil => exact absurd rfl h
        | cons d ds => simp; omega
      exact ih _ hlt _ _ rfl hne

theorem polyval_wf (p : Polyval) (data : Bytes) (h : data ≠ []) :
    ((p.polyval data).h.length = 16 ∧ WfBytes (p.polyval data).h) ∧
      (p.polyval data).key = p.key :=
  polyval_wf_aux data.length p data rfl h

/-- `polyval` never changes the key. -/
theorem polyval_key (p : Polyval) (data : Bytes) :
    (p.polyval data).key = p.key := by
  rcases Decidable.em (data = []) with rfl | h
  · rfl
  · exact (polyval_wf p data h).2

/-- XOR-ing a short chunk into a 16-byte accumulator agrees with XOR-ing the
chunk zero-padded to 16 bytes. -/
theorem xorInto_pad (h c : Bytes) (hh : h.length = 16) (hc : c.length ≤ 16) :
    xorInto h c = xorInto h (c ++ List.replicate (16 - c.length) 0) := by
  unfold xorInto
  have hsplit : h = h.take c.length ++ h.drop c.length := (List.take_append_drop _ _).symm
  have hz1 : List.zipWith (· ^^^ ·) h (c ++ List.replicate (16 - c.length) 0) =
      List.zipWith (· ^^^ ·) (h.take c.length) c ++
        List.zipWith (· ^^^ ·) (h.drop c.length) (List.replicate (16 - c.length) 0) := by
    conv_lhs => rw [hsplit]
    exact List.zipWith_append _ _ _ _ _ (by simp; omega)
  have hz2 : List.zipWith (· ^^^ ·) (h.drop c.length) (List.replicate (16 - c.length) 0) =
      h.drop c.length := by
    rw [zipWith_xor_replicate_zero]
    apply List.take_of_length_le
    simp
    omega
  have hz3 : List.zipWith (· ^^^ ·) h c = List.zipWith (· ^^^ ·) (h.take c.length) c := by
    rw [zipWith_take_left]
  have hlen : (c ++ List.replicate (16 - c.length) 0).length = 16 := by
    simp
    omega
  rw [hz1, hz2, hz3, hlen]
  have hd16 : h.drop 16 = [] := by
    apply List.eq_nil_of_length_eq_zero
    simp [hh]
  rw [hd16, List.append_nil]

/-- Zero-padding the data to the next 16-byte boundary does not change the
Polyval accumulator. -/
theorem polyval_pad :
    ∀ (n : Nat) (p : Polyval) (data : Bytes), data.length = n → p.h.length = 16 →
      p.polyval data =
        p.polyval (data ++ List.replicate ((16 - data.length % 16) % 16) 0) := by
  intro n
  induction n using Nat.strong_induction_on with
  | _ n ih =>
    intro p data hn hh
    rcases Decidable.em (data = []) with rfl | hne
    · simp [polyval_nil]
    · rcases Nat.lt_or_ge data.length 16 with hlt | hge
      · -- a single short chunk: reduce to xorInto_pad
        have hmod : data.length % 16 = data.length := Nat.mod_eq_of_lt hlt
        have hnz : data.length ≠ 0 := by
          intro hcon
          exact hne (List.eq_nil_of_length_eq_zero hcon)
        have hpadlen : (16 - data.length % 16) % 16 = 16 - data.length := by omega
        rw [hpadlen]
        rw [polyval_step p data hne,
            polyval_step p (data ++ List.replicate (16 - data.length) 0)
              (by simp [hne])]
        have htake1 : data.take 16 = data := List.take_of_length_le (by omega)
        have htake2 : (data ++ List.replicate (16 - data.length) 0).take 16 =
            data ++ List.replicate (16 - data.length) 0 := by
          apply List.take_of_length_le
          simp
          omega
        have hdrop1 : data.drop 16 = [] := by
          apply List.eq_nil_of_length_eq_zero
          simp
          omega
        have hdrop2 : (data ++ List.replicate (16 - data.length) 0).drop 16 = [] := by
          apply List.eq_nil_of_length_eq_zero
          simp
          omega
        rw [htake1, htake2, hdrop1, hdrop2]
        rw [← xorInto_pad p.h data hh (by omega)]
      · -- a full leading chunk on both sides
        have h16 : (16 : Nat) ≤ data.length := hge
        rw [polyval_step p data hne,
            polyval_step p (data ++ List.replicate ((16 - data.length % 16) % 16) 0)
              (by simp [hne])]
        have htake : (data ++ List.replicate ((16 - data.length % 16) % 16) 0).take 16 =
            data.take 16 := by
          rw [List.take_append_eq_append_take]
          have : 16 - (data.take 16).length = 0 := by
            simp
            omega
          simp [this]
          omega
        have hdrop : (data ++ List.replicate ((16 - data.length % 16) % 16) 0).drop 16 =
            data.drop 16 ++ List.replicate ((16 - data.length % 16) % 16) 0 := by
          rw [List.drop_append_eq_append_drop]
          have : 16 - data.length = 0 := by omega
          simp [this]
        rw [htake, hdrop]
        have hmod : (16 - (data.drop 16).length % 16) % 16 =
            (16 - data.length % 16) % 16 := by
          have : (data.drop 16).length = data.length - 16 := by simp
          rw [this]
          omega
        rw [← hmod]
        apply ih ((data.drop 16).length)
        · subst hn
          cases data with
          | nil => exact absurd rfl hne
          | cons d ds => simp; omega
        · rfl
        · exact (gf_mul_wf _).1

/-- Decompose a 16-byte list into its entries. -/
theorem bytes16_exists (l : Bytes) (h : l.length = 16) :
    ∃ b0 b1 b2 b3 b4 b5 b6 b7 b8 b9 b10 b11 b12 b13 b14 b15,
      l = [b0, b1, b2, b3, b4, b5, b6, b7, b8, b9, b10, b11, b12, b13, b14, b15] := by
  match l, h with
  | [b0, b1, b2, b3, b4, b5, b6, b7, b8, b9, b10, b11, b12, b13, b14, b15], _ =>
    exact ⟨b0, b1, b2, b3, b4, b5, b6, b7, b8, b9, b10, b11, b12, b13, b14, b15, rfl⟩

set_option maxRecDepth 4096 in
theorem byte_and_7f : ∀ b < 256, b &&& 0x7f = b % 128 := by decide

set_option maxRecDepth 4096 in
theorem byte_or_80 : ∀ b < 256, b ||| 0x80 = b % 128 + 128 := by decide

/-- Masking byte 15 with `0x7f` forces bit 127 of the little-endian 128-bit
value to 0 and keeps all other bits. -/
theorem fromLe128_set15_and (l : Bytes) (hlen : l.length = 16) (hwf : WfBytes l) :
    fromLe128 (l.set 15 (l.getD 15 0 &&& 0x7f)) = fromLe128 l % 2 ^ 127 := by
  obtain ⟨b0, b1, b2, b3, b4, b5, b6, b7, b8, b9, b10, b11, b12, b13, b14, b15, rfl⟩ :=
    bytes16_exists l hlen
  have h0 : b0 < 256 := hwf b0 (by simp)
  have h1 : b1 < 256 := hwf b1 (by simp)
  have h2 : b2 < 256 := hwf b2 (by simp)
  have h3 : b3 < 256 := hwf b3 (by simp)
  have h4 : b4 < 256 := hwf b4 (by simp)
  have h5 : b5 < 256 := hwf b5 (by simp)
  have h6 : b6 < 256 := hwf b6 (by simp)
  have h7 : b7 < 256 := hwf b7 (by simp)
  have h8 : b8 < 256 := hwf b8 (by simp)
  have h9 : b9 < 256 := hwf b9 (by simp)
  have h10 : b10 < 256 := hwf b10 (by simp)
  have h11 : b11 < 256 := hwf b11 (by simp)
  have h12 : b12 < 256 := hwf b12 (by simp)
  have h13 : b13 < 256 := hwf b13 (by simp)
  have h14 : b14 < 256 := hwf b14 (by simp)
  have h15 : b15 < 256 := hwf b15 (by simp)
  have hgd : (([b0, b1, b2, b3, b4, b5, b6, b7, b8, b9, b10, b11, b12, b13, b14,
      b15] : Bytes).getD 15 0) = b15 := rfl
  rw [hgd, byte_and_7f b15 h15]
  have hset : (([b0, b1, b2, b3, b4, b5, b6, b7, b8, b9, b10, b11, b12, b13, b14,
      b15] : Bytes).set 15 (b15 % 128)) =
      [b0, b1, b2, b3, b4, b5, b6, b7, b8, b9, b10, b11, b12, b13, b14, b15 % 128] := rfl
  rw [hset]
  have e1 : ∀ v : Nat, fromLe128 ([b0, b1, b2, b3, b4, b5, b6, b7, b8, b9, b10, b11,
      b12, b13, b14, v] : Bytes) =
      b0 + 256 * b1 + 65536 * b2 + 16777216 * b3 + 4294967296 * b4 +
        1099511627776 * b5 + 281474976710656 * b6 + 72057594037927936 * b7 +
        18446744073709551616 * (b8 + 256 * b9 + 65536 * b10 + 16777216 * b11 +
          4294967296 * b12 + 1099511627776 * b13 + 281474976710656 * b14 +
          72057594037927936 * v) := fun v => rfl
  rw [e1, e1]
  omega

/-- Setting bit 7 of byte 15 forces bit 127 of the little-endian 128-bit
value to 1 and keeps all other bits. -/
theorem fromLe128_set15_or (l : Bytes) (hlen : l.length = 16) (hwf : WfBytes l) :
    fromLe128 (l.set 15 (l.getD 15 0 ||| 0x80)) = fromLe128 l % 2 ^ 127 + 2 ^ 127 := by
  obtain ⟨b0, b1, b2, b3, b4, b5, b6, b7, b8, b9, b10, b11, b12, b13, b14, b15, rfl⟩ :=
    bytes16_exists l hlen
  have h0 : b0 < 256 := hwf b0 (by simp)
  have h1 : b1 < 256 := hwf b1 (by simp)
  have h2 : b2 < 256 := hwf b2 (by simp)
  have h3 : b3 < 256 := hwf b3 (by simp)
  have h4 : b4 < 256 := hwf b4 (by simp)
  have h5 : b5 < 256 := hwf b5 (by simp)
  have h6 : b6 < 256 := hwf b6 (by simp)
  have h7 : b7 < 256 := hwf b7 (by simp)
  have h8 : b8 < 256 := hwf b8 (by simp)
  have h9 : b9 < 256 := hwf b9 (by simp)
  have h10 : b10 < 256 := hwf b10 (by simp)
  have h11 : b11 < 256 := hwf b11 (by simp)
  have h12 : b12 < 256 := hwf b12 (by simp)
  have h13 : b13 < 256 := hwf b13 (by simp)
  have h14 : b14 < 256 := hwf b14 (by simp)
  have h15 : b15 < 256 := hwf b15 (by simp)
  have hgd : (([b0, b1, b2, b3, b4, b5, b6, b7, b8, b9, b10, b11, b12, b13, b14,
      b15] : Bytes).getD 15 0) = b15 := rfl
  rw [hgd, byte_or_80 b15 h15]
  have hset : (([b0, b1, b2, b3, b4, b5, b6, b7, b8, b9, b10, b11, b12, b13, b14,
      b15] : Bytes).set 15 (b15 % 128 + 128)) =
      [b0, b1, b2, b3, b4, b5, b6, b7, b8, b9, b10, b11, b12, b13, b14,
        b15 % 128 + 128] := rfl
  rw [hset]
  have e1 : ∀ v : Nat, fromLe128 ([b0, b1, b2, b3, b4, b5, b6, b7, b8, b9, b10, b11,
      b12, b13, b14, v] : Bytes) =
      b0 + 256 * b1 + 65536 * b2 + 16777216 * b3 + 4294967296 * b4 +
        1099511627776 * b5 + 281474976710656 * b6 + 72057594037927936 * b7 +
        18446744073709551616 * (b8 + 256 * b9 + 65536 * b10 + 16777216 * b11 +
          4294967296 * b12 + 1099511627776 * b13 + 281474976710656 * b14 +
          72057594037927936 * v) := fun v => rfl
  rw [e1, e1]
  omega

/-- Unfolding `Chacha20Poly1305::aead_encrypt` when the Poly1305 template has
absorbed nothing (as produced by `new`): the buffer becomes
ciphertext ++ MAC of the `macFeed` byte sequence. -/
theorem chacha_aead_encrypt_eq (s : Chacha20Poly1305) (aad buf : Bytes)
    (hacc : s.poly1305.acc = []) :
    s.aead_encrypt aad buf =
      ({ s with chacha20 := (s.chacha20.encryptBuf (buf.take (buf.length - 16))).1 },
       (s.chacha20.encryptBuf (buf.take (buf.length - 16))).2 ++
         s.poly1305.mac s.poly1305.key
           (macFeed aad (s.chacha20.encryptBuf (buf.take (buf.length - 16))).2)) := by
  have hr1 : 16 - aad.length % 16 > 0 := by omega
  have hr2 : 16 - (buf.length - 16) % 16 > 0 := by omega
  have hctlen : ((s.chacha20.encryptBuf (buf.take (buf.length - 16))).2).length =
      buf.length - 16 := by
    rw [encryptBuf_length]
    simp
  simp only [Chacha20Poly1305.aead_encrypt, hr1, hr2, if_pos,
    Poly1305.update, Poly1305.finalize, macFeed, poly1305PadLen, hacc, hctlen]
  simp [List.append_assoc]

/-- Unfolding `Chacha20Poly1305::aead_decrypt` for a fresh template: verify
the MAC of `macFeed` over the stored ciphertext against the trailing tag,
decrypting only on success. -/
theorem chacha_aead_decrypt_eq (s : Chacha20Poly1305) (aad buf : Bytes)
    (hacc : s.poly1305.acc = []) :
    s.aead_decrypt aad buf =
      (if ctEq (buf.drop (buf.length - 16))
          (s.poly1305.mac s.poly1305.key (macFeed aad (buf.take (buf.length - 16)))) then
        ({ s with chacha20 := (s.chacha20.encryptBuf (buf.take (buf.length - 16))).1 },
         (s.chacha20.encryptBuf (buf.take (buf.length - 16))).2 ++
           buf.drop (buf.length - 16), true)
      else (s, buf, false)) := by
  have hr1 : 16 - aad.length % 16 > 0 := by omega
  have hr2 : 16 - (buf.length - 16) % 16 > 0 := by omega
  have htlen : ((buf.take (buf.length - 16)).length) = buf.length - 16 := by
    simp
  simp only [Chacha20Poly1305.aead_decrypt, hr1, hr2, if_pos,
    Poly1305.update, Poly1305.finalize, macFeed, poly1305PadLen, hacc, htlen]
  simp [List.append_assoc]

/-! ### Claim theorems -/

/-- C2 (code bug evaluation): at the failing input — empty associated data
and an empty plaintext, both lengths multiples of 16 — the byte sequence the
code feeds to the Poly1305 accumulator (observed through a recording MAC
function) is `macFeed [] [] = 32 zero bytes ++ lengths`, a full 16-byte zero
block of padding after each of the two empty fields, whereas the claim's
padding rule (`macFeedClaim`, pad only up to the smallest multiple of 16 not
below the field length) yields no padding bytes at all.  The code therefore
violates RFC 8439 (cited in its own module comment) whenever the associated
data length or the ciphertext length is a multiple of 16. -/
theorem C2_poly1305_padding_bug_eval :
    ((Chacha20Poly1305.new (fun _ d => d) (fun _ => 0)).aead_encrypt []
        (List.replicate 16 0)).2 = macFeed [] [] ∧
      macFeed [] [] = List.replicate 32 0 ++ toLe64 0 ++ toLe64 0 ∧
      macFeedClaim [] [] = toLe64 0 ++ toLe64 0 ∧
      macFeed [] [] ≠ macFeedClaim [] [] := by
  refine ⟨?_, by decide, by decide, by decide⟩
  decide

/-- C3: on a fresh session and a buffer of at least 16 bytes,
`Chacha20Poly1305::aead_decrypt` returns exactly whether the recomputed MAC
over `macFeed aad ciphertext` equals the stored trailing 16 bytes, and when
it returns `false` every byte of the buffer is unchanged — no decrypted
plaintext is written on authentication failure. -/
theorem C3_chacha_decrypt_failure_leaves_buffer (mac : Bytes → Bytes → Bytes)
    (ks : Nat → Nat) (aad buf : Bytes) (hlen : 16 ≤ buf.length) :
    (((Chacha20Poly1305.new mac ks).aead_decrypt aad buf).2.2 = false →
        ((Chacha20Poly1305.new mac ks).aead_decrypt aad buf).2.1 = buf) ∧
      (((Chacha20Poly1305.new mac ks).aead_decrypt aad buf).2.2 = true ↔
        mac ((Chacha20Poly1305.new mac ks).poly1305.key)
            (macFeed aad (buf.take (buf.length - 16))) =
          buf.drop (buf.length - 16)) := by
  set s := Chacha20Poly1305.new mac ks with hs
  have hacc : s.poly1305.acc = [] := rfl
  rw [chacha_aead_decrypt_eq s aad buf hacc]
  by_cases hmatch : ctEq (buf.drop (buf.length - 16))
      (s.poly1305.mac s.poly1305.key (macFeed aad (buf.take (buf.length - 16)))) = true
  · rw [if_pos hmatch]
    refine ⟨?_, ?_, ?_⟩
    · intro hfalse
      simp at hfalse
    · intro _
      exact ((ctEq_eq_true_iff _ _).mp hmatch).symm
    · intro _
      rfl
  · rw [if_neg (by simpa using hmatch)]
    refine ⟨?_, ?_, ?_⟩
    · intro _
      rfl
    · intro hcon
      simp at hcon
    · intro heq
      exact absurd ((ctEq_eq_true_iff _ _).mpr heq.symm) hmatch

/-- A concrete probe block cipher for the C7 counterexample: its output
records the length of the key it was constructed with, so it distinguishes
the 16-byte derived message-encryption key the code builds (from derivation
indices 2 and 3) from the empty one that remains under the claim's index
range 0..(key-length/8 - 1). -/
def probeAes (k b : Bytes) : Bytes :=
  List.replicate 16 ((k.length + b.getD 0 0) % 256)

/-- C7 (counterexample): with the 16-byte all-zero key and 12-byte all-zero
nonce and the probe cipher, the session built by the code differs observably
from the session prescribed by the claim's key-derivation index range
`0..(key-length/8 - 1)` (encoded verbatim in `Aes128GcmSivNewClaim`): the
code re-keys with a 16-byte key derived at indices 2 and 3, the claim's
range leaves no chunks for the message-encryption key. -/
theorem C7_key_derivation_index_range_cex :
    (Aes128GcmSiv.new probeAes (List.replicate 16 0) (List.replicate 12 0)).cipher
        (List.replicate 16 0) ≠
      (Aes128GcmSivNewClaim probeAes (List.replicate 16 0) (List.replicate 12 0)).cipher
        (List.replicate 16 0) := by
  decide

/-- C7 (amended): for every 16-byte key and 12-byte nonce,
`Aes128GcmSiv::new` builds the counter block `0x00000000 ‖ nonce` and, for
each key-derivation index from 0 up to key-length/8 + 1 = 3 inclusive (not
key-length/8 - 1), sets the low 32 bits of that block to the index (the
source writes only byte 0; bytes 1..3 are already zero, so the first four
bytes then hold the index in little-endian), encrypts it with the
long-term-keyed block cipher, and takes the first 8 bytes of the result;
chunks 0 and 1 form the message-authentication key installed as the Polyval
key, chunks 2 and 3 form the message-encryption key with which the session
cipher is re-keyed; the nonce is stored in the session. -/
theorem C7_gcm_siv_key_derivation_amended (aes : Bytes → Bytes → Bytes)
    (key nonce : Bytes) (i : Nat) (hi : i ≤ 3)
    (hkey : key.length = 16) (hnonce : nonce.length = 12) :
    fromLe32 (((List.replicate 4 0 ++ nonce).set 0 i).take 4) = i ∧
      ((List.replicate 4 0 ++ nonce).set 0 i).drop 4 = nonce ∧
      (Aes128GcmSiv.new aes key nonce).polyval =
        Polyval.new ((aes key ((List.replicate 4 0 ++ nonce).set 0 0)).take 8 ++
          (aes key ((List.replicate 4 0 ++ nonce).set 0 1)).take 8) ∧
      (Aes128GcmSiv.new aes key nonce).cipher =
        aes ((aes key ((List.replicate 4 0 ++ nonce).set 0 2)).take 8 ++
          (aes key ((List.replicate 4 0 ++ nonce).set 0 3)).take 8) ∧
      (Aes128GcmSiv.new aes key nonce).nonce = nonce := by
  have ht : nonce.take 12 = nonce := List.take_of_length_le (by omega)
  refine ⟨rfl, rfl, ?_, ?_, ?_⟩
  · simp only [Aes128GcmSiv.new, ht]
  · simp only [Aes128GcmSiv.new, ht]
  · simp only [Aes128GcmSiv.new, ht]

/-- C8: `incr` replaces the first four bytes of a 16-byte counter block with
the little-endian encoding of their little-endian 32-bit value plus one
modulo `2^32`, leaves bytes 4..15 unchanged, and the CTR loop shared by the
encrypt and decrypt paths of `Aes128GcmSiv` applies it exactly once per
16-byte chunk: after processing, the counter equals `incr` iterated
`⌈len/16⌉` times. -/
theorem C8_incr_le32_once_per_chunk :
    (∀ block : Bytes, block.length = 16 →
        incr block = toLe32 ((fromLe32 block + 1) % 2 ^ 32) ++ block.drop 4 ∧
          (incr block).drop 4 = block.drop 4) ∧
      (∀ (E : Bytes → Bytes) (counter data : Bytes),
        (ctr E counter data).2 = incr^[(data.length + 15) / 16] counter) := by
  constructor
  · intro block hlen
    obtain ⟨b0, b1, b2, b3, rest, hb⟩ :
        ∃ b0 b1 b2 b3 rest, block = b0 :: b1 :: b2 :: b3 :: rest := by
      match block, hlen with
      | b0 :: b1 :: b2 :: b3 :: rest, _ => exact ⟨b0, b1, b2, b3, rest, rfl⟩
    subst hb
    exact ⟨rfl, rfl⟩
  · intro E counter data
    exact ctrGo_counter E data.length counter data (le_refl _)

/-- C9: `Polyval::polyval` processes data in 16-byte chunks — each chunk is
XORed into the (leading bytes of the) accumulator, which is then multiplied
by the key in GF(2^128) by `gf_mul` — and a trailing chunk shorter than 16
bytes is XORed into the corresponding leading accumulator bytes only, so
absorbing any data leaves exactly the same accumulator as absorbing the data
zero-padded to the next 16-byte boundary. -/
theorem C9_polyval_chunking_and_padding :
    (∀ (p : Polyval) (data : Bytes), data ≠ [] →
        p.polyval data =
          Polyval.polyval (Polyval.gf_mul { p with h := xorInto p.h (data.take 16) })
            (data.drop 16)) ∧
      (∀ (p : Polyval) (data : Bytes), p.h.length = 16 →
        p.polyval data =
          p.polyval (data ++ List.replicate ((16 - data.length % 16) % 16) 0)) :=
  ⟨polyval_step, fun p data hh => polyval_pad data.length p data rfl hh⟩

theorem xor_byte_lt {x y : Nat} (hx : x < 256) (hy : y < 256) : x ^^^ y < 256 := by
  have h8 : (256 : Nat) = 2 ^ 8 := by norm_num
  rw [h8] at hx hy ⊢
  exact Nat.xor_lt_two_pow hx hy

theorem xorInto_length (h c : Bytes) (hc : c.length ≤ h.length) :
    (xorInto h c).length = h.length := by
  unfold xorInto
  simp
  omega

theorem xorInto_wf (h c : Bytes) (hh : WfBytes h) (hc : WfBytes c) :
    WfBytes (xorInto h c) := by
  intro x hx
  unfold xorInto at hx
  rcases List.mem_append.mp hx with hmem | hmem
  · obtain ⟨i, hi, rfl⟩ := List.mem_iff_getElem.mp hmem
    rw [List.getElem_zipWith]
    exact xor_byte_lt
      (hh _ (List.getElem_mem _))
      (hc _ (List.getElem_mem _))
  · exact hh x (List.mem_of_mem_drop hmem)

theorem xorInto_take (h c : Bytes) (hc : c.length ≤ h.length) :
    (xorInto h c).take c.length = List.zipWith (· ^^^ ·) (h.take c.length) c ∧
      (xorInto h c).drop c.length = h.drop c.length := by
  unfold xorInto
  have hz : (List.zipWith (· ^^^ ·) h c).length = c.length := by
    simp
    omega
  constructor
  · rw [List.take_left' hz, zipWith_take_left]
  · rw [List.drop_left' hz]

/-- C5: the tag of `Aes128GcmSiv::aead_encrypt` comes from resetting the
Polyval accumulator, absorbing the associated data, the plaintext, and one
16-byte trailer holding the two 8-byte little-endian bit lengths, XORing the
12-byte nonce into the first 12 accumulator bytes (the last 4 are
untouched), forcing bit 127 of the 128-bit accumulator value to 0, and
block-encrypting the masked value with the message-encryption-keyed cipher;
the initial CTR counter block is this tag with bit 127 forced to 1, and the
tag occupies the last 16 bytes of the output buffer. -/
theorem C5_gcm_siv_encrypt_tag_pipeline (aes : Bytes → Bytes → Bytes)
    (key nonce aad buf : Bytes) (hnonce : nonce.length = 12)
    (hwfn : WfBytes nonce) (hE : ∀ k b, (aes k b).length = 16)
    (hEwf : ∀ k b, WfBytes (aes k b)) (hlen : 16 ≤ buf.length) :
    let s := Aes128GcmSiv.new aes key nonce
    let plen := buf.length - 16
    let acc := ((s.polyval.reset.polyval aad).polyval (buf.take plen)).polyval
      (toLe64 (aad.length * 8) ++ toLe64 (plen * 8))
    let hx := xorInto acc.h s.nonce
    let masked := hx.set 15 (hx.getD 15 0 &&& 0x7f)
    let tag := s.cipher masked
    (s.aead_encrypt aad buf).2 =
        (ctr s.cipher (tag.set 15 (tag.getD 15 0 ||| 0x80)) (buf.take plen)).1 ++ tag ∧
      (s.aead_encrypt aad buf).2.drop plen = tag ∧
      hx.take 12 = List.zipWith (· ^^^ ·) (acc.h.take 12) s.nonce ∧
      hx.drop 12 = acc.h.drop 12 ∧
      fromLe128 masked = fromLe128 hx % 2 ^ 127 ∧
      fromLe128 (tag.set 15 (tag.getD 15 0 ||| 0x80)) =
        fromLe128 tag % 2 ^ 127 + 2 ^ 127 := by
  intro s plen acc hx masked tag
  have hsn : s.nonce = nonce := by
    show nonce.take 12 = nonce
    exact List.take_of_length_le (by omega)
  have hEs : ∀ b, (s.cipher b).length = 16 := fun b => hE _ b
  have hEswf : ∀ b, WfBytes (s.cipher b) := fun b => hEwf _ b
  have hacc : acc.h.length = 16 ∧ WfBytes acc.h :=
    (polyval_wf _ _ (by simp [toLe64])).1
  have hxlen : hx.length = 16 := by
    show (xorInto acc.h s.nonce).length = 16
    rw [xorInto_length _ _ (by rw [hsn, hnonce, hacc.1]; omega), hacc.1]
  have hxwf : WfBytes hx :=
    xorInto_wf _ _ hacc.2 (by rw [hsn]; exact hwfn)
  have htaglen : tag.length = 16 := hEs _
  have htagwf : WfBytes tag := hEswf _
  refine ⟨rfl, ?_, ?_, ?_, ?_, ?_⟩
  · show ((ctr s.cipher (tag.set 15 (tag.getD 15 0 ||| 0x80)) (buf.take plen)).1 ++ tag).drop
        plen = tag
    apply List.drop_left'
    rw [ctr_length _ hEs]
    simp
    omega
  · have h12 : s.nonce.length = 12 := by rw [hsn, hnonce]
    have := xorInto_take acc.h s.nonce (by rw [h12, hacc.1]; omega)
    rw [← h12]
    exact this.1
  · have h12 : s.nonce.length = 12 := by rw [hsn, hnonce]
    have := xorInto_take acc.h s.nonce (by rw [h12, hacc.1]; omega)
    rw [← h12]
    exact this.2
  · exact fromLe128_set15_and hx hxlen hxwf
  · exact fromLe128_set15_or tag htaglen htagwf

/-- C4: `Aes128GcmSiv::aead_decrypt` always counter-mode-decrypts the
ciphertext in place before any verification, with the initial counter block
equal to the claimed tag (the trailing 16 bytes) with bit 127 forced to 1;
the returned buffer is the decrypted bytes followed by the claimed tag
regardless of the boolean — so on failure the buffer has already been overwritten
with unauthenticated bytes — and the boolean is exactly whether the tag
recomputed over the recovered plaintext (the same pipeline `aead_encrypt`
applies to a plaintext, as the last conjunct states) equals the claimed
tag. -/
theorem C4_gcm_siv_decrypt_before_verify (aes : Bytes → Bytes → Bytes)
    (key nonce aad buf : Bytes) (hE : ∀ k b, (aes k b).length = 16)
    (hwf : WfBytes buf) (hlen : 16 ≤ buf.length) :
    let s := Aes128GcmSiv.new aes key nonce
    let clen := buf.length - 16
    let tag0 := buf.drop clen
    let counter0 := tag0.set 15 (tag0.getD 15 0 ||| 0x80)
    let pt := (ctr s.cipher counter0 (buf.take clen)).1
    let accD := ((s.polyval.reset.polyval aad).polyval pt).polyval
      (toLe64 (aad.length * 8) ++ toLe64 (clen * 8))
    let hxD := xorInto accD.h s.nonce
    let tagD := s.cipher (hxD.set 15 (hxD.getD 15 0 &&& 0x7f))
    (s.aead_decrypt aad buf).2.1 = pt ++ tag0 ∧
      fromLe128 counter0 = fromLe128 tag0 % 2 ^ 127 + 2 ^ 127 ∧
      ((s.aead_decrypt aad buf).2.2 = true ↔ tagD = tag0) ∧
      (s.aead_encrypt aad (pt ++ List.replicate 16 0)).2.drop clen = tagD := by
  intro s clen tag0 counter0 pt accD hxD tagD
  have hEs : ∀ b, (s.cipher b).length = 16 := fun b => hE _ b
  have htag0len : tag0.length = 16 := by
    show (buf.drop clen).length = 16
    simp
    omega
  have htag0wf : WfBytes tag0 := fun x hx => hwf x (List.mem_of_mem_drop hx)
  have hptlen : pt.length = clen := by
    show ((ctr s.cipher counter0 (buf.take clen)).1).length = clen
    rw [ctr_length _ hEs]
    simp
    omega
  refine ⟨rfl, ?_, ?_, ?_⟩
  · exact fromLe128_set15_or tag0 htag0len htag0wf
  · show ctEq tag0 tagD = true ↔ tagD = tag0
    rw [ctEq_eq_true_iff]
    exact eq_comm
  · have hplen' : (pt ++ List.replicate 16 0).length - 16 = clen := by
      rw [List.length_append, hptlen]
      simp
    have htake' : (pt ++ List.replicate 16 0).take clen = pt := List.take_left' hptlen
    simp only [Aes128GcmSiv.aead_encrypt, hplen', htake']
    apply List.drop_left'
    rw [ctr_length _ hEs, hptlen]

/-- C1: round trip for both constructions.  Encrypting a buffer (plaintext
plus 16 bytes of tag space) on a fresh session and decrypting the result on
a second fresh session built from the same inputs returns `true` and
restores the first `len - 16` bytes to the original plaintext.  The
ChaCha20 keystream, the Poly1305 MAC and the AES block cipher are arbitrary
(the MAC must return 16-byte tags and the block cipher 16-byte blocks, as
the primitives do). -/
theorem C1_aead_round_trip :
    (∀ (mac : Bytes → Bytes → Bytes) (ks : Nat → Nat) (aad buf : Bytes),
        16 ≤ buf.length → (∀ k d, (mac k d).length = 16) →
        ((Chacha20Poly1305.new mac ks).aead_decrypt aad
            ((Chacha20Poly1305.new mac ks).aead_encrypt aad buf).2).2.2 = true ∧
          ((Chacha20Poly1305.new mac ks).aead_decrypt aad
              ((Chacha20Poly1305.new mac ks).aead_encrypt aad buf).2).2.1.take
            (buf.length - 16) = buf.take (buf.length - 16)) ∧
      (∀ (aes : Bytes → Bytes → Bytes) (key nonce aad buf : Bytes),
        16 ≤ buf.length → (∀ k b, (aes k b).length = 16) →
        ((Aes128GcmSiv.new aes key nonce).aead_decrypt aad
            ((Aes128GcmSiv.new aes key nonce).aead_encrypt aad buf).2).2.2 = true ∧
          ((Aes128GcmSiv.new aes key nonce).aead_decrypt aad
              ((Aes128GcmSiv.new aes key nonce).aead_encrypt aad buf).2).2.1.take
            (buf.length - 16) = buf.take (buf.length - 16)) := by
  constructor
  · intro mac ks aad buf hlen hmac
    set s := Chacha20Poly1305.new mac ks with hs
    have hacc : s.poly1305.acc = [] := rfl
    set plen := buf.length - 16 with hplen
    set pt := buf.take plen with hpt
    set ct := (s.chacha20.encryptBuf pt).2 with hct
    set tag := s.poly1305.mac s.poly1305.key (macFeed aad ct) with htag
    have hptlen : pt.length = plen := by
      rw [hpt]
      simp
      omega
    have henc : (s.aead_encrypt aad buf).2 = ct ++ tag := by
      rw [chacha_aead_encrypt_eq s aad buf hacc]
    have hctlen : ct.length = plen := by
      rw [hct, encryptBuf_length]
      exact hptlen
    have htaglen : tag.length = 16 := hmac _ _
    have hlen2 : (ct ++ tag).length - 16 = plen := by
      simp [hctlen, htaglen]
    have htake : (ct ++ tag).take ((ct ++ tag).length - 16) = ct := by
      rw [hlen2]
      exact List.take_left' hctlen
    have hdrop : (ct ++ tag).drop ((ct ++ tag).length - 16) = tag := by
      rw [hlen2]
      exact List.drop_left' hctlen
    rw [henc, chacha_aead_decrypt_eq s aad (ct ++ tag) hacc, htake, hdrop,
      if_pos ((ctEq_eq_true_iff _ _).mpr htag)]
    refine ⟨rfl, ?_⟩
    have hdec : (s.chacha20.encryptBuf ct).2 = pt := by
      rw [hct]
      exact encryptBuf_encryptBuf s.chacha20 pt
    show ((s.chacha20.encryptBuf ct).2 ++ tag).take plen = buf.take plen
    rw [hdec, List.take_left' hptlen, hpt]
  · intro aes key nonce aad buf hlen hE
    set s := Aes128GcmSiv.new aes key nonce with hs
    have hEs : ∀ b, (s.cipher b).length = 16 := fun b => hE _ b
    set plen := buf.length - 16 with hplen
    set pt := buf.take plen with hpt
    have hptlen : pt.length = plen := by
      rw [hpt]
      simp
      omega
    set acc := ((s.polyval.reset.polyval aad).polyval pt).polyval
      (toLe64 (aad.length * 8) ++ toLe64 (plen * 8)) with hacc
    set hx := xorInto acc.h s.nonce with hhx
    set masked := hx.set 15 (hx.getD 15 0 &&& 0x7f) with hmasked
    set tag := s.cipher masked with htag
    set counter := tag.set 15 (tag.getD 15 0 ||| 0x80) with hcounter
    set ct := (ctr s.cipher counter pt).1 with hct
    have henc : (s.aead_encrypt aad buf).2 = ct ++ tag := rfl
    have hctlen : ct.length = plen := by
      rw [hct, ctr_length _ hEs]
      exact hptlen
    have htaglen : tag.length = 16 := hEs _
    have hlen2 : (ct ++ tag).length - 16 = plen := by
      simp [hctlen, htaglen]
    have htake : (ct ++ tag).take ((ct ++ tag).length - 16) = ct := by
      rw [hlen2]
      exact List.take_left' hctlen
    have hdrop : (ct ++ tag).drop ((ct ++ tag).length - 16) = tag := by
      rw [hlen2]
      exact List.drop_left' hctlen
    have hctr : (ctr s.cipher counter ct).1 = pt := by
      rw [hct]
      exact ctr_ctr s.cipher hEs counter pt
    rw [henc]
    show (s.aead_decrypt aad (ct ++ tag)).2.2 = true ∧ _
    simp only [Aes128GcmSiv.aead_decrypt]
    rw [htake, hdrop, hlen2, ← hcounter, hctr, ← hacc, ← hhx, ← hmasked, ← htag]
    refine ⟨?_, ?_⟩
    · rw [ctEq_self]
    · rw [List.take_left' hptlen, hpt]

/-! ### Concrete inputs for witnesses -/

/-- A concrete MAC function returning a constant 16-byte tag. -/
def wMac : Bytes → Bytes → Bytes := fun _ _ => List.replicate 16 1

/-- A concrete keystream. -/
def wKs : Nat → Nat := fun i => (i * 7 + 3) % 256

def wKey : Bytes := List.replicate 16 2

def wNonce : Bytes := List.replicate 12 7

def wAad : Bytes := [4, 200]

def wBuf : Bytes := List.replicate 20 9

/-- Witness for C1 at concrete inputs. -/
theorem C1_aead_round_trip_witness :
    (16 ≤ wBuf.length ∧ (∀ k d, (wMac k d).length = 16) ∧
        (∀ k b, (probeAes k b).length = 16)) ∧
      (((Chacha20Poly1305.new wMac wKs).aead_decrypt wAad
            ((Chacha20Poly1305.new wMac wKs).aead_encrypt wAad wBuf).2).2.2 = true ∧
        ((Chacha20Poly1305.new wMac wKs).aead_decrypt wAad
              ((Chacha20Poly1305.new wMac wKs).aead_encrypt wAad wBuf).2).2.1.take
          (wBuf.length - 16) = wBuf.take (wBuf.length - 16)) ∧
      (((Aes128GcmSiv.new probeAes wKey wNonce).aead_decrypt wAad
            ((Aes128GcmSiv.new probeAes wKey wNonce).aead_encrypt wAad wBuf).2).2.2 = true ∧
        ((Aes128GcmSiv.new probeAes wKey wNonce).aead_decrypt wAad
              ((Aes128GcmSiv.new probeAes wKey wNonce).aead_encrypt wAad wBuf).2).2.1.take
          (wBuf.length - 16) = wBuf.take (wBuf.length - 16)) :=
  ⟨⟨by decide, fun _ _ => rfl, fun _ _ => rfl⟩,
   C1_aead_round_trip.1 wMac wKs wAad wBuf (by decide) (fun _ _ => rfl),
   C1_aead_round_trip.2 probeAes wKey wNonce wAad wBuf (by decide) (fun _ _ => rfl)⟩

/-- Witness for C3 at concrete inputs. -/
theorem C3_chacha_decrypt_failure_witness :
    16 ≤ wBuf.length ∧
      ((((Chacha20Poly1305.new wMac wKs).aead_decrypt wAad wBuf).2.2 = false →
          ((Chacha20Poly1305.new wMac wKs).aead_decrypt wAad wBuf).2.1 = wBuf) ∧
        (((Chacha20Poly1305.new wMac wKs).aead_decrypt wAad wBuf).2.2 = true ↔
          wMac ((Chacha20Poly1305.new wMac wKs).poly1305.key)
              (macFeed wAad (wBuf.take (wBuf.length - 16))) =
            wBuf.drop (wBuf.length - 16))) :=
  ⟨by decide, C3_chacha_decrypt_failure_leaves_buffer wMac wKs wAad wBuf (by decide)⟩

/-- Witness for C4 at concrete inputs. -/
theorem C4_gcm_siv_decrypt_before_verify_witness :
    ((∀ k b, (probeAes k b).length = 16) ∧ WfBytes wBuf ∧ 16 ≤ wBuf.length) ∧
      (let s := Aes128GcmSiv.new probeAes wKey wNonce
       let clen := wBuf.length - 16
       let tag0 := wBuf.drop clen
       let counter0 := tag0.set 15 (tag0.getD 15 0 ||| 0x80)
       let pt := (ctr s.cipher counter0 (wBuf.take clen)).1
       let accD := ((s.polyval.reset.polyval wAad).polyval pt).polyval
         (toLe64 (wAad.length * 8) ++ toLe64 (clen * 8))
       let hxD := xorInto accD.h s.nonce
       let tagD := s.cipher (hxD.set 15 (hxD.getD 15 0 &&& 0x7f))
       (s.aead_decrypt wAad wBuf).2.1 = pt ++ tag0 ∧
         fromLe128 counter0 = fromLe128 tag0 % 2 ^ 127 + 2 ^ 127 ∧
         ((s.aead_decrypt wAad wBuf).2.2 = true ↔ tagD = tag0) ∧
         (s.aead_encrypt wAad (pt ++ List.replicate 16 0)).2.drop clen = tagD) :=
  ⟨⟨fun _ _ => rfl, by decide, by decide⟩,
   C4_gcm_siv_decrypt_before_verify probeAes wKey wNonce wAad wBuf
     (fun _ _ => rfl) (by decide) (by decide)⟩

/-- Witness for C5 at concrete inputs. -/
theorem C5_gcm_siv_encrypt_tag_pipeline_witness :
    (wNonce.length = 12 ∧ WfBytes wNonce ∧ (∀ k b, (probeAes k b).length = 16) ∧
        (∀ k b, WfBytes (probeAes k b)) ∧ 16 ≤ wBuf.length) ∧
      (let s := Aes128GcmSiv.new probeAes wKey wNonce
       let plen := wBuf.length - 16
       let acc := ((s.polyval.reset.polyval wAad).polyval (wBuf.take plen)).polyval
         (toLe64 (wAad.length * 8) ++ toLe64 (plen * 8))
       let hx := xorInto acc.h s.nonce
       let masked := hx.set 15 (hx.getD 15 0 &&& 0x7f)
       let tag := s.cipher masked
       (s.aead_encrypt wAad wBuf).2 =
           (ctr s.cipher (tag.set 15 (tag.getD 15 0 ||| 0x80)) (wBuf.take plen)).1 ++ tag ∧
         (s.aead_encrypt wAad wBuf).2.drop plen = tag ∧
         hx.take 12 = List.zipWith (· ^^^ ·) (acc.h.take 12) s.nonce ∧
         hx.drop 12 = acc.h.drop 12 ∧
         fromLe128 masked = fromLe128 hx % 2 ^ 127 ∧
         fromLe128 (tag.set 15 (tag.getD 15 0 ||| 0x80)) =
           fromLe128 tag % 2 ^ 127 + 2 ^ 127) :=
  ⟨⟨by decide, by decide, fun _ _ => rfl, fun _ _ => by intro x hx; simp [probeAes] at hx; omega,
    by decide⟩,
   C5_gcm_siv_encrypt_tag_pipeline probeAes wKey wNonce wAad wBuf (by decide) (by decide)
     (fun _ _ => rfl) (fun _ _ => by intro x hx; simp [probeAes] at hx; omega) (by decide)⟩

/-- Witness for the amended C7 at concrete inputs (index 2). -/
theorem C7_gcm_siv_key_derivation_amended_witness :
    (2 ≤ 3 ∧ wKey.length = 16 ∧ wNonce.length = 12) ∧
      (fromLe32 (((List.replicate 4 0 ++ wNonce).set 0 2).take 4) = 2 ∧
        ((List.replicate 4 0 ++ wNonce).set 0 2).drop 4 = wNonce ∧
        (Aes128GcmSiv.new probeAes wKey wNonce).polyval =
          Polyval.new ((probeAes wKey ((List.replicate 4 0 ++ wNonce).set 0 0)).take 8 ++
            (probeAes wKey ((List.replicate 4 0 ++ wNonce).set 0 1)).take 8) ∧
        (Aes128GcmSiv.new probeAes wKey wNonce).cipher =
          probeAes ((probeAes wKey ((List.replicate 4 0 ++ wNonce).set 0 2)).take 8 ++
            (probeAes wKey ((List.replicate 4 0 ++ wNonce).set 0 3)).take 8) ∧
        (Aes128GcmSiv.new probeAes wKey wNonce).nonce = wNonce) :=
  ⟨⟨by decide, by decide, by decide⟩,
   C7_gcm_siv_key_derivation_amended probeAes wKey wNonce 2 (by decide) (by decide) (by decide)⟩

/-- Witness for C8 at concrete inputs. -/
theorem C8_incr_le32_once_per_chunk_witness :
    (List.replicate 16 250 : Bytes).length = 16 ∧
      (incr (List.replicate 16 250) =
          toLe32 ((fromLe32 (List.replicate 16 250) + 1) % 2 ^ 32) ++
            (List.replicate 16 250 : Bytes).drop 4 ∧
        (incr (List.replicate 16 250)).drop 4 = (List.replicate 16 250 : Bytes).drop 4) ∧
      (ctr (probeAes wKey) (List.replicate 16 250) wBuf).2 =
        incr^[(wBuf.length + 15) / 16] (List.replicate 16 250) :=
  ⟨by decide, C8_incr_le32_once_per_chunk.1 (List.replicate 16 250) (by decide),
   C8_incr_le32_once_per_chunk.2 (probeAes wKey) (List.replicate 16 250) wBuf⟩

/-- Witness for C9 at concrete inputs: a 5-byte chunk appended to a full
chunk, and the zero-padding equivalence on a 7-byte message. -/
theorem C9_polyval_chunking_and_padding_witness :
    ((wBuf ≠ []) ∧ (Polyval.new wKey).h.length = 16) ∧
      (Polyval.new wKey).polyval wBuf =
        Polyval.polyval
          (Polyval.gf_mul { Polyval.new wKey with h := xorInto (Polyval.new wKey).h (wBuf.take 16) })
          (wBuf.drop 16) ∧
      (Polyval.new wKey).polyval [11, 22, 33, 44, 55, 66, 77] =
        (Polyval.new wKey).polyval ([11, 22, 33, 44, 55, 66, 77] ++
          List.replicate ((16 - ([11, 22, 33, 44, 55, 66, 77] : Bytes).length % 16) % 16) 0) :=
  ⟨⟨by decide, by decide⟩,
   C9_polyval_chunking_and_padding.1 (Polyval.new wKey) wBuf (by decide),
   C9_polyval_chunking_and_padding.2 (Polyval.new wKey) [11, 22, 33, 44, 55, 66, 77] (by decide)⟩

end Crypto
